import Mathlib

/-!
Verification of the query-evaluation and storage engine of
`python-in-layers-core` (module `in_layers.core.models`).

The engine's implementation file is not part of the checked-out sources;
only its test suite (`tests/models/test_backends.py`) is.  Every definition
below is therefore modelled from the specification (`spec.md`, sections
3, 4.2-4.5 and 7), with the concrete Python error types taken from the
observable behaviour pinned down by the tests (`ValueError` for structural
token errors, `KeyError` for update-on-missing, `None` for
retrieve-on-missing).
-/

/-- Modelled from the spec: dynamic record/query values.  The spec's data
model stores arbitrary Python values; the shapes the engine distinguishes
are text, numbers, booleans, native date values, nested objects and an
absent/None value. -/
inductive Value where
  | vstr : String → Value
  | vnum : Int → Value
  | vbool : Bool → Value
  | vdate : Int → Value
  | vobj : List (String × Value) → Value
  | vnone : Value
deriving Repr

/-- Modelled from the spec: structural (deep) equality of values, the
"object" comparison of section 4.3. -/
def veq : Value → Value → Bool
  | .vstr a, .vstr b => a == b
  | .vnum a, .vnum b => a == b
  | .vbool a, .vbool b => a == b
  | .vdate a, .vdate b => a == b
  | .vnone, .vnone => true
  | .vobj a, .vobj b => veqFields a b
  | _, _ => false
where
  veqFields : List (String × Value) → List (String × Value) → Bool
  | [], [] => true
  | (k1, v1) :: r1, (k2, v2) :: r2 => k1 == k2 && veq v1 v2 && veqFields r1 r2
  | _, _ => false

/-- Modelled from the spec: `DataType` enum {string, number, boolean, date, object}. -/
inductive DatastoreValueType where
  | string | number | boolean | date | object
deriving DecidableEq, Repr

/-- Modelled from the spec: `Symbol` enum {eq, ne, gt, gte, lt, lte}. -/
inductive EqualitySymbol where
  | eq | ne | gt | gte | lt | lte
deriving DecidableEq, Repr

/-- Modelled from the spec: `PropertyOptions`, defaulting to type=object,
equality_symbol=eq, case_sensitive=true, all substring flags false. -/
structure PropertyOptions where
  type : DatastoreValueType := .object
  equality_symbol : EqualitySymbol := .eq
  case_sensitive : Bool := true
  starts_with : Bool := false
  ends_with : Bool := false
  includes : Bool := false
deriving Repr

/-- Modelled from the spec: a `PredicateToken` {property, value, options}. -/
structure PredicateToken where
  property : String
  value : Value
  options : PropertyOptions
deriving Repr

/-- Modelled from the spec: the two link markers `AND` / `OR`. -/
inductive LinkKind where
  | and | or
deriving DecidableEq, Repr

/-- Modelled from the spec: the token sum type over predicate, link,
nested group and unrecognized. -/
inductive Token where
  | pred : PredicateToken → Token
  | link : LinkKind → Token
  | group : List Token → Token
  | unrecognized : Token
deriving Repr

/-- A stored record: a mapping from field name to value. -/
abbrev Record := List (String × Value)

/-- First-match field lookup in a record. -/
def lookupField (r : Record) (k : String) : Option Value :=
  match r with
  | [] => none
  | (k2, v) :: rest => if k2 == k then some v else lookupField rest k

/-- Modelled from the spec: coerce a value to text for string comparison. -/
def valueToText : Value → String
  | .vstr s => s
  | .vnum n => toString n
  | .vbool b => if b then "True" else "False"
  | .vdate n => toString n
  | .vobj _ => "object"
  | .vnone => "None"

/-- Character-list test: `a` starts with `b`. -/
def startsWithL : List Char → List Char → Bool
  | _, [] => true
  | [], _ :: _ => false
  | a :: as, b :: bs => a == b && startsWithL as bs

/-- Character-list test: `a` contains `b` as a contiguous substring. -/
def containsL : List Char → List Char → Bool
  | [], bs => bs.isEmpty
  | a :: as, bs => startsWithL (a :: as) bs || containsL as bs

/-- Lexicographic strict order on character lists. -/
def lexLt : List Char → List Char → Bool
  | [], [] => false
  | [], _ :: _ => true
  | _ :: _, [] => false
  | a :: as, b :: bs => if a < b then true else if b < a then false else lexLt as bs

/-- Modelled from the spec: for eq use the substring boolean directly,
for ne negate it; only eq/ne are meaningful, other symbols use it directly. -/
def applyNe (s : EqualitySymbol) (b : Bool) : Bool :=
  match s with
  | .ne => !b
  | _ => b

/-- Modelled from the spec (section 4.3, string, together with the date
bullet's string-mode): coerce both sides to text, fold case when
`case_sensitive` is false, compute the substring relation when one of
the flags is set (negated under ne); otherwise apply
eq/ne/gt/gte/lt/lte over the two sides as ordered text (the string-mode
ordered comparison exercised by the dates-as-string tests). -/
def compareString (rv pv : Value) (o : PropertyOptions) : Bool :=
  let a0 := valueToText rv
  let b0 := valueToText pv
  let a := if o.case_sensitive then a0 else a0.toLower
  let b := if o.case_sensitive then b0 else b0.toLower
  if o.starts_with then applyNe o.equality_symbol (startsWithL a.data b.data)
  else if o.ends_with then applyNe o.equality_symbol (startsWithL a.data.reverse b.data.reverse)
  else if o.includes then applyNe o.equality_symbol (containsL a.data b.data)
  else
    match o.equality_symbol with
    | .eq => a == b
    | .ne => a != b
    | .gt => lexLt b.data a.data
    | .gte => !(lexLt a.data b.data)
    | .lt => lexLt a.data b.data
    | .lte => !(lexLt b.data a.data)

/-- The numeric value of a decimal digit character, if it is one. -/
def digitVal (c : Char) : Option Int :=
  if c.isDigit then some ((c.toNat : Int) - 48) else none

/-- Accumulate the value of a decimal digit run; fails on a non-digit. -/
def digitsAcc : List Char → Int → Option Int
  | [], acc => some acc
  | c :: rest, acc =>
    match digitVal c with
    | some d => digitsAcc rest (acc * 10 + d)
    | none => none

/-- Parse integer text (an optional minus sign and at least one digit). -/
def parseIntText : List Char → Option Int
  | [] => none
  | '-' :: rest =>
    if rest.isEmpty then none else (digitsAcc rest 0).map (fun n => -n)
  | cs => digitsAcc cs 0

/-- Modelled from the spec: numeric coercion; numbers directly, booleans
as 0/1, numeric text parsed; anything else fails. -/
def toNumber : Value → Option Int
  | .vnum n => some n
  | .vbool b => some (if b then 1 else 0)
  | .vstr s => parseIntText s.data
  | _ => none

/-- The six-way comparison of two comparable instants/numbers. -/
def compareInt (s : EqualitySymbol) (a b : Int) : Bool :=
  match s with
  | .eq => a == b
  | .ne => a != b
  | .gt => decide (a > b)
  | .gte => decide (a ≥ b)
  | .lt => decide (a < b)
  | .lte => decide (a ≤ b)

/-- Modelled from the spec (section 4.3, number): coercion failure on
either side yields false, otherwise numeric comparison per the symbol. -/
def compareNumber (rv pv : Value) (s : EqualitySymbol) : Bool :=
  match toNumber rv, toNumber pv with
  | some a, some b => compareInt s a b
  | _, _ => false

/-- Modelled from the spec (section 4.3, boolean): only eq/ne are valid,
any other symbol or a non-boolean side yields false. -/
def compareBoolean (rv pv : Value) (s : EqualitySymbol) : Bool :=
  match rv, pv with
  | .vbool a, .vbool b =>
    match s with
    | .eq => a == b
    | .ne => a != b
    | _ => false
  | _, _ => false

/-- Civil-calendar date to days since the Unix epoch. -/
def daysFromCivil (y m d : Int) : Int :=
  let y2 := if m ≤ 2 then y - 1 else y
  let era := (if y2 ≥ 0 then y2 else y2 - 399) / 400
  let yoe := y2 - era * 400
  let mp := (m + 9) % 12
  let doy := (153 * mp + 2) / 5 + d - 1
  let doe := yoe * 365 + yoe / 4 - yoe / 100 + doy
  era * 146097 + doe - 719468

/-- Read one decimal digit from the front of a character list. -/
def readDigit : List Char → Option (Int × List Char)
  | c :: rest => (digitVal c).map (fun d => (d, rest))
  | [] => none

/-- Read two decimal digits as a number. -/
def read2 (cs : List Char) : Option (Int × List Char) := do
  let (a, cs1) ← readDigit cs
  let (b, cs2) ← readDigit cs1
  pure (a * 10 + b, cs2)

/-- Read four decimal digits as a number. -/
def read4 (cs : List Char) : Option (Int × List Char) := do
  let (a, cs1) ← read2 cs
  let (b, cs2) ← read2 cs1
  pure (a * 100 + b, cs2)

/-- Consume one expected character. -/
def expectChar (c : Char) : List Char → Option (List Char)
  | d :: rest => if d == c then some rest else none
  | [] => none

/-- Parse the optional `THH:MM:SS` + optional `Z` tail of an ISO string,
adding the seconds-of-day to `base`. -/
def parseIsoTime (base : Int) (cs : List Char) : Option Int :=
  match cs with
  | [] => some base
  | _ => do
    let cs1 ← expectChar 'T' cs
    let (hh, cs2) ← read2 cs1
    let cs3 ← expectChar ':' cs2
    let (mi, cs4) ← read2 cs3
    let cs5 ← expectChar ':' cs4
    let (ss, cs6) ← read2 cs5
    if (hh ≤ 23 && mi ≤ 59 && ss ≤ 59 && (cs6 == [] || cs6 == ['Z'])) then
      some (base + hh * 3600 + mi * 60 + ss)
    else none

/-- Modelled from the spec: parse ISO-8601 text (`YYYY-MM-DD`, optionally
followed by `THH:MM:SS` and an optional `Z`) into epoch seconds; anything
else is unparseable and fails. -/
def parseIsoChars (cs : List Char) : Option Int := do
  let (y, cs1) ← read4 cs
  let cs2 ← expectChar '-' cs1
  let (mo, cs3) ← read2 cs2
  let cs4 ← expectChar '-' cs3
  let (dd, cs5) ← read2 cs4
  if (1 ≤ mo && mo ≤ 12 && 1 ≤ dd && dd ≤ 31) then
    parseIsoTime (daysFromCivil y mo dd * 86400) cs5
  else none

/-- Modelled from the spec (section 4.3, date): coerce a value to a
comparable instant — native date values directly, numeric epochs only
inside the representable range, ISO-8601 text parsed; any other shape
is unsupported and fails. -/
def toDatetime : Value → Option Int
  | .vdate n => some n
  | .vnum n => if (-62135596800 ≤ n && n ≤ 253402300799) then some n else none
  | .vstr s => parseIsoChars s.data
  | _ => none

/-- Modelled from the spec (section 4.3, date): any coercion failure on
either side yields false, otherwise comparison of instants per the symbol. -/
def compareDate (rv pv : Value) (s : EqualitySymbol) : Bool :=
  match toDatetime rv, toDatetime pv with
  | some a, some b => compareInt s a b
  | _, _ => false

/-- Modelled from the spec (section 4.3, object): only eq/ne via deep
structural equality; any other symbol yields false. -/
def compareObject (rv pv : Value) (s : EqualitySymbol) : Bool :=
  match s with
  | .eq => veq rv pv
  | .ne => !(veq rv pv)
  | _ => false

/-- Modelled from the spec: predicate evaluation dispatches on the
declared data type. -/
def compareByType : DatastoreValueType → Value → Value → PropertyOptions → Bool
  | .string, rv, pv, o => compareString rv pv o
  | .number, rv, pv, o => compareNumber rv pv o.equality_symbol
  | .boolean, rv, pv, o => compareBoolean rv pv o.equality_symbol
  | .date, rv, pv, o => compareDate rv pv o.equality_symbol
  | .object, rv, pv, o => compareObject rv pv o.equality_symbol

/-- The value a predicate compares for a record field: the stored value,
or the absent/None value when the field is missing. -/
def fieldValue (r : Record) (k : String) : Value :=
  match lookupField r k with
  | some v => v
  | none => .vnone

/-- Modelled from the spec: the typed comparison of the record's field
value against the predicate value; a field absent from the record is
not special-cased but reduces through the same type path as the
absent/None value (a coercion failure for the numeric/date/boolean
paths, the text "None" for the string path, a structural mismatch for
the object path). -/
def matchPredicate (p : PredicateToken) (r : Record) : Bool :=
  compareByType p.options.type (fieldValue r p.property) p.value p.options

/-- Modelled from the spec: the two concrete Python failure types the
engine surfaces — `ValueError` for a structural token error and
`KeyError` for update on a missing primary key. -/
inductive PyError where
  | valueError : String → PyError
  | keyError : String → PyError
deriving DecidableEq, Repr

/-- Is this token a link marker? -/
def isLink : Token → Bool
  | .link _ => true
  | _ => false

/-- Is this token a valid operand (predicate or group)? -/
def isOperand : Token → Bool
  | .pred _ => true
  | .group _ => true
  | _ => false

/-- Does the token list contain a link marker anywhere? -/
def hasLink (ts : List Token) : Bool := ts.any isLink

/-- Modelled from the spec: strict alternation — operand, link, operand,
link, …, operand (odd length, links exactly at odd positions). -/
def validAlt : List Token → Bool
  | [] => false
  | [t] => isOperand t
  | t :: l :: rest => isOperand t && isLink l && validAlt rest

/-- Combine two operand results per the link marker. -/
def combineLink : LinkKind → Bool → Bool → Bool
  | .and, a, b => a && b
  | .or, a, b => a || b

mutual

/-- Modelled from the spec: evaluating a single token — a predicate
dispatches on its declared type, a group recursively evaluates its inner
list, an unrecognized token evaluates to false. -/
def evalToken : Token → Record → Except PyError Bool
  | .pred p, r => .ok (matchPredicate p r)
  | .link _, _ => .ok false
  | .unrecognized, _ => .ok false
  | .group ts, r => evaluate ts r
termination_by t _ => (sizeOf t, 0)

/-- Modelled from the spec: the implicit-AND mode for link-free lists —
every element is a conjunct and all must be true. -/
def conjAll : List Token → Record → Except PyError Bool
  | [], _ => .ok true
  | t :: ts, r => do
    let b ← evalToken t r
    let rest ← conjAll ts r
    pure (b && rest)
termination_by ts _ => (sizeOf ts, 1)

/-- Modelled from the spec: the left-to-right fold over (link, operand)
pairs; a shape that is not a (link, operand)* tail is a structural error. -/
def foldLinked : Bool → List Token → Record → Except PyError Bool
  | acc, [], _ => .ok acc
  | acc, .link lk :: t :: rest, r => do
    let b ← evalToken t r
    foldLinked (combineLink lk acc b) rest r
  | _, _, _ => .error (.valueError "invalid token sequence")
termination_by _ ts _ => (sizeOf ts, 1)

/-- Modelled from the spec (section 4.2): empty list is true; a link-free
list is an implicit AND of its elements; a list containing a link must
alternate strictly (operand, link, operand, …) or a structural
`ValueError` is raised; otherwise fold left to right. -/
def evaluate : List Token → Record → Except PyError Bool
  | [], _ => .ok true
  | t :: rest, r =>
    if hasLink (t :: rest) then
      if validAlt (t :: rest) then do
        let b ← evalToken t r
        foldLinked b rest r
      else .error (.valueError "invalid token sequence")
    else conjAll (t :: rest) r
termination_by ts _ => (sizeOf ts, 2)

end

/-- Modelled from the spec: strict ordering of two field values for the
sort comparator — like-typed numbers, text, dates and booleans are
ordered; anything else is incomparable (treated as equal). -/
def vlt : Value → Value → Bool
  | .vnum a, .vnum b => decide (a < b)
  | .vstr a, .vstr b => lexLt a.data b.data
  | .vdate a, .vdate b => decide (a < b)
  | .vbool a, .vbool b => !a && b
  | _, _ => false

/-- Modelled from the spec: sort order `asc` or `dsc`. -/
inductive SortOrder where
  | asc | dsc
deriving DecidableEq, Repr

/-- Modelled from the spec: the optional sort clause {property, order}. -/
structure SortSpec where
  property : String
  order : SortOrder
deriving Repr

/-- Modelled from the spec: the sort comparator — when the sort key is
missing on either side the two records compare as equal (never strictly
less), so relative insertion order is preserved; otherwise the field
values are ordered ascending or descending. -/
def recLt (s : SortSpec) (a b : Record) : Bool :=
  match lookupField a s.property, lookupField b s.property with
  | some x, some y =>
    match s.order with
    | .asc => vlt x y
    | .dsc => vlt y x
  | _, _ => false

/-- Stable insertion of `x` into a list: `x` goes before the first
element not strictly below it. -/
def insertLt (lt : α → α → Bool) (x : α) : List α → List α
  | [] => [x]
  | y :: ys => if lt y x then y :: insertLt lt x ys else x :: y :: ys

/-- Stable insertion sort with a strict comparator. -/
def insSort (lt : α → α → Bool) : List α → List α
  | [] => []
  | x :: xs => insertLt lt x (insSort lt xs)

/-- Modelled from the spec: stably sort the matches by the sort clause
when present. -/
def sortStep (s : Option SortSpec) (l : List Record) : List Record :=
  match s with
  | none => l
  | some sp => insSort (recLt sp) l

/-- Modelled from the spec: truncate to `take` when present. -/
def applyTake (t : Option Nat) (l : List Record) : List Record :=
  match t with
  | none => l
  | some n => l.take n

/-- Modelled from the spec: the immutable compiled query — token list,
optional sort, optional take, and an opaque page value of any type. -/
structure CompiledQuery (π : Type) where
  query : List Token
  sort : Option SortSpec
  take : Option Nat
  page : π

/-- Modelled from the spec: the {instances, page} search result. -/
structure SearchResult (π : Type) where
  instances : List Record
  page : π
deriving Repr

/-- Modelled from the spec: the model definition {domain, plural_name,
primary_key} that keys a bucket. -/
structure ModelDef where
  domain : String
  plural_name : String
  primary_key : String
deriving DecidableEq, Repr

/-- Modelled from the spec: a bucket — records in insertion order keyed
by primary-key value, plus the bucket's autoincrement counter. -/
structure Bucket where
  records : List (Value × Record)
  counter : Nat
deriving Repr

/-- The empty bucket a model starts from (buckets are created lazily). -/
def emptyBucket : Bucket := ⟨[], 0⟩

/-- Modelled from the spec: the reference in-memory backend, an explicit
keyed map from (domain, plural_name) to the bucket holding that model's
records and counter; unkeyed models map to the empty bucket (buckets
exist lazily). -/
structure MemoryBackend where
  buckets : (String × String) → Bucket

/-- A backend with no buckets. -/
def emptyBackend : MemoryBackend := ⟨fun _ => emptyBucket⟩

/-- The bucket key of a model. -/
def bucketKey (m : ModelDef) : String × String := (m.domain, m.plural_name)

/-- Look a model's bucket up. -/
def getBucket (be : MemoryBackend) (m : ModelDef) : Bucket :=
  be.buckets (bucketKey m)

/-- Replace (or lazily create) the bucket of a model. -/
def setBucket (be : MemoryBackend) (m : ModelDef) (b : Bucket) : MemoryBackend :=
  ⟨fun k => if k = bucketKey m then b else be.buckets k⟩

/-- Find a stored record by primary-key value. -/
def lookupPk (b : Bucket) (pk : Value) : Option Record :=
  match b.records.find? (fun e => veq e.1 pk) with
  | some e => some e.2
  | none => none

/-- Store a record under a primary-key value: replace an existing entry
in place, otherwise append in insertion order. -/
def putRecord (b : Bucket) (pk : Value) (r : Record) : Bucket :=
  if (b.records.find? (fun e => veq e.1 pk)).isSome then
    ⟨b.records.map (fun e => if veq e.1 pk then (e.1, r) else e), b.counter⟩
  else
    ⟨b.records ++ [(pk, r)], b.counter⟩

/-- Set a field of a record, replacing an existing entry or appending. -/
def setField (r : Record) (k : String) (v : Value) : Record :=
  if (lookupField r k).isSome then
    r.map (fun e => if e.1 == k then (e.1, v) else e)
  else
    r ++ [(k, v)]

/-- Modelled from the spec: `create` — resolve the bucket, assign the
next autoincrement value when the primary-key field is absent from the
data (starting at 1, strictly increasing), store, and return the stored
record. -/
def create (be : MemoryBackend) (m : ModelDef) (data : Record) :
    Record × MemoryBackend :=
  let b := getBucket be m
  match lookupField data m.primary_key with
  | some pkv =>
    (data, setBucket be m (putRecord b pkv data))
  | none =>
    let pkv := Value.vnum (Int.ofNat (b.counter + 1))
    let rec2 := data ++ [(m.primary_key, pkv)]
    let b2 := putRecord ⟨b.records, b.counter + 1⟩ pkv rec2
    (rec2, setBucket be m b2)

/-- Modelled from the spec: `retrieve` — the matching record, or the
absent-value signal `none` when the key is missing. -/
def retrieve (be : MemoryBackend) (m : ModelDef) (pk : Value) : Option Record :=
  lookupPk (getBucket be m) pk

/-- Shallow merge: fields of `p` win over fields of `stored`; new fields
of `p` are appended. -/
def mergeRecords (stored p : Record) : Record :=
  (stored.map (fun e =>
    match lookupField p e.1 with
    | some v => (e.1, v)
    | none => e)) ++
  p.filter (fun e => (lookupField stored e.1).isNone)

/-- Modelled from the spec: `update` — a missing key fails with the
not-found `KeyError`; otherwise shallow-merge the partial record over
the stored one, re-assert the primary key, persist and return. -/
def update (be : MemoryBackend) (m : ModelDef) (pk : Value) (p : Record) :
    Except PyError (Record × MemoryBackend) :=
  let b := getBucket be m
  match lookupPk b pk with
  | none => .error (.keyError "not found")
  | some stored =>
    let merged := setField (mergeRecords stored p) m.primary_key pk
    .ok (merged, setBucket be m (putRecord b pk merged))

/-- Modelled from the spec: `delete` — remove the record when present;
deleting an absent key is a no-op, not an error. -/
def delete (be : MemoryBackend) (m : ModelDef) (pk : Value) : MemoryBackend :=
  let b := getBucket be m
  setBucket be m ⟨b.records.filter (fun en => !(veq en.1 pk)), b.counter⟩

/-- Modelled from the spec: `dispose` discards every bucket of the store. -/
def dispose (_ : MemoryBackend) : MemoryBackend := emptyBackend

/-- Run the evaluator over each record in insertion order, keeping the
matches; a structural error aborts the whole pass. -/
def filterRecords (ts : List Token) : List Record → Except PyError (List Record)
  | [] => .ok []
  | r :: rs => do
    let b ← evaluate ts r
    let rest ← filterRecords ts rs
    pure (if b then r :: rest else rest)

/-- Modelled from the spec: `search` — evaluate every record of the
bucket in insertion order, stably sort when a sort clause is present,
truncate to `take` when present, and return the instances together with
the input's `page` value passed through verbatim. -/
def search (be : MemoryBackend) (m : ModelDef) (q : CompiledQuery π) :
    Except PyError (SearchResult π) := do
  let matched ← filterRecords q.query ((getBucket be m).records.map Prod.snd)
  pure ⟨applyTake q.take (sortStep q.sort matched), q.page⟩

mutual

/-- Structural validity of a single token: a group is valid when its
inner list is; predicates, links and unrecognized tokens have no inner
structure. -/
def tokenValid : Token → Bool
  | .group ts =>
    (if hasLink ts then validAlt ts else true) && allTokensValid ts
  | _ => true
termination_by t => sizeOf t

/-- Structural validity of every token of a list. -/
def allTokensValid : List Token → Bool
  | [] => true
  | t :: ts => tokenValid t && allTokensValid ts
termination_by ts => sizeOf ts

end

/-- Structural validity of a compiled token list: the alternation shape
holds at this level whenever a link is present, and recursively inside
every group. -/
def tokensValid (ts : List Token) : Bool :=
  (if hasLink ts then validAlt ts else true) && allTokensValid ts

/-- The positional reading of the alternation invariant: odd length,
operands exactly at even positions, links exactly at odd positions. -/
def PositionalValid (ts : List Token) : Prop :=
  ts.length % 2 = 1 ∧
  ∀ i, (h : i < ts.length) →
    (i % 2 = 0 → isOperand (ts.get ⟨i, h⟩) = true) ∧
    (i % 2 = 1 → isLink (ts.get ⟨i, h⟩) = true)


/-- The shape `(link, operand)*` that the left fold consumes. -/
def linkedTail : List Token → Bool
  | [] => true
  | [_] => false
  | l :: t :: rest => isLink l && isOperand t && linkedTail rest

/-- No adjacent pair of the list is inverted under the strict
comparator. -/
def noAdjInv (lt : α → α → Bool) : List α → Prop
  | [] => True
  | [_] => True
  | a :: b :: rest => lt b a = false ∧ noAdjInv lt (b :: rest)

/-- A state-changing store operation, for reasoning about operation
traces (the autoincrement counter is never reset or reused across any
sequence of creates, updates and deletes). -/
inductive StoreOp where
  | createOp : ModelDef → Record → StoreOp
  | updateOp : ModelDef → Value → Record → StoreOp
  | deleteOp : ModelDef → Value → StoreOp

/-- Apply one store operation (a failing update leaves the store as is). -/
def applyOp (be : MemoryBackend) : StoreOp → MemoryBackend
  | .createOp m d => (create be m d).2
  | .updateOp m pk p =>
    match update be m pk p with
    | .ok x => x.2
    | .error _ => be
  | .deleteOp m pk => delete be m pk

/-- Apply a sequence of store operations left to right. -/
def applyOps (be : MemoryBackend) (ops : List StoreOp) : MemoryBackend :=
  ops.foldl applyOp be

/-- A concrete model fixture for witnesses. -/
def mW : ModelDef := ⟨"test", "items", "id"⟩

/-- A concrete numeric predicate token fixture. -/
def wPredA : Token := .pred ⟨"a", .vnum 1, ⟨.number, .eq, true, false, false, false⟩⟩

/-- A second concrete numeric predicate token fixture. -/
def wPredB : Token := .pred ⟨"b", .vnum 2, ⟨.number, .eq, true, false, false, false⟩⟩

/-- A concrete record fixture. -/
def recAB : Record := [("a", .vnum 1), ("b", .vnum 2)]

/-- A one-record store fixture. -/
def beW : MemoryBackend := (create emptyBackend mW [("id", .vnum 1)]).2

lemma evaluate_nil (r : Record) : evaluate [] r = .ok true := by
  simp [evaluate]

lemma hasLink_eq_false_iff (ts : List Token) :
    hasLink ts = false ↔ ∀ t ∈ ts, isLink t = false := by
  simp [hasLink, List.any_eq_false]

lemma conjAll_of_pointwise (ts : List Token) (r : Record) (f : Token → Bool)
    (h : ∀ t ∈ ts, evalToken t r = .ok (f t)) :
    conjAll ts r = .ok (ts.all f) := by
  induction ts with
  | nil => simp [conjAll]
  | cons t ts ih =>
    have h1 := h t (by simp)
    have h2 : ∀ u ∈ ts, evalToken u r = .ok (f u) := fun u hu => h u (by simp [hu])
    simp only [conjAll, h1, ih h2, List.all_cons]
    rfl

lemma evaluate_linkfree (t : Token) (rest : List Token) (r : Record)
    (h : hasLink (t :: rest) = false) :
    evaluate (t :: rest) r = conjAll (t :: rest) r := by
  simp [evaluate, h]

lemma evaluate_invalid (ts : List Token) (h1 : hasLink ts = true)
    (h2 : validAlt ts = false) (r : Record) :
    evaluate ts r = .error (.valueError "invalid token sequence") := by
  cases ts with
  | nil => simp [hasLink] at h1
  | cons t rest => simp [evaluate, h1, h2]

lemma validAlt_iff_positional (ts : List Token) :
    validAlt ts = true ↔ PositionalValid ts := by
  induction ts using validAlt.induct with
  | case1 =>
    simp [validAlt, PositionalValid]
  | case2 t =>
    simp only [validAlt, PositionalValid, List.length_singleton]
    constructor
    · intro h
      refine ⟨by decide, ?_⟩
      intro i hi
      have : i = 0 := by omega
      subst this
      exact ⟨fun _ => h, fun hc => by omega⟩
    · intro ⟨_, h⟩
      exact (h 0 (by omega)).1 (by omega)
  | case3 t l rest ih =>
    simp only [validAlt, Bool.and_eq_true]
    constructor
    · rintro ⟨⟨hop, hlk⟩, hrest⟩
      obtain ⟨hlen, hpos⟩ := ih.mp hrest
      refine ⟨?_, ?_⟩
      · simp only [List.length_cons]
        omega
      · intro i hi
        match i with
        | 0 => exact ⟨fun _ => hop, fun h => by omega⟩
        | 1 => exact ⟨fun h => by omega, fun _ => hlk⟩
        | (j + 2) =>
          have hj : j < rest.length := by
            simp only [List.length_cons] at hi
            omega
          have hget : (t :: l :: rest).get ⟨j + 2, hi⟩ = rest.get ⟨j, hj⟩ := rfl
          have hmod0 : (j + 2) % 2 = 0 ↔ j % 2 = 0 := by omega
          have hmod1 : (j + 2) % 2 = 1 ↔ j % 2 = 1 := by omega
          rw [hget, hmod0, hmod1]
          exact hpos j hj
    · rintro ⟨hlen, hpos⟩
      have hlen2 : rest.length % 2 = 1 := by
        simp only [List.length_cons] at hlen
        omega
      have h0 : (0 : Nat) < (t :: l :: rest).length := by simp
      have h1 : (1 : Nat) < (t :: l :: rest).length := by simp
      refine ⟨⟨(hpos 0 h0).1 (by omega), (hpos 1 h1).2 (by omega)⟩, ?_⟩
      refine ih.mpr ⟨hlen2, ?_⟩
      intro j hj
      have hj2 : j + 2 < (t :: l :: rest).length := by
        simp only [List.length_cons]
        omega
      have hget : (t :: l :: rest).get ⟨j + 2, hj2⟩ = rest.get ⟨j, hj⟩ := rfl
      have := hpos (j + 2) hj2
      rw [hget] at this
      constructor
      · intro h
        exact this.1 (by omega)
      · intro h
        exact this.2 (by omega)


lemma validAlt_cons_shape (ts : List Token) :
    ∀ t rest, ts = t :: rest → validAlt ts = true →
      isOperand t = true ∧ linkedTail rest = true := by
  induction ts using validAlt.induct with
  | case1 =>
    intro t rest h
    cases h
  | case2 u =>
    intro t rest h hv
    cases h
    simp only [validAlt] at hv
    exact ⟨hv, rfl⟩
  | case3 u l rest2 ih =>
    intro t rest h hv
    cases h
    simp only [validAlt, Bool.and_eq_true] at hv
    obtain ⟨⟨hop, hlk⟩, hrest⟩ := hv
    have hne : rest2 ≠ [] := by
      intro h2
      subst h2
      simp [validAlt] at hrest
    obtain ⟨t2, rest3, rfl⟩ := List.exists_cons_of_ne_nil hne
    obtain ⟨hop2, htail⟩ := ih t2 rest3 rfl hrest
    simp [linkedTail, hlk, hop, hop2, htail]

lemma allTokensValid_cons (t : Token) (ts : List Token) :
    allTokensValid (t :: ts) = (tokenValid t && allTokensValid ts) := by
  simp [allTokensValid]

lemma tokenValid_group (ts : List Token) :
    tokenValid (.group ts) = tokensValid ts := by
  simp [tokenValid, tokensValid]

lemma allTokensValid_mem (ts : List Token) (h : allTokensValid ts = true) :
    ∀ t ∈ ts, tokenValid t = true := by
  induction ts with
  | nil => simp
  | cons t ts ih =>
    rw [allTokensValid_cons, Bool.and_eq_true] at h
    intro u hu
    rcases List.mem_cons.mp hu with rfl | hu2
    · exact h.1
    · exact ih h.2 u hu2

/-- One step of the joint totality induction: at size bound `n`, every
structurally valid token / list evaluates without an error. -/
lemma eval_total_aux (n : Nat) :
    (∀ t : Token, sizeOf t ≤ n → tokenValid t = true →
      ∀ r : Record, ∃ b, evalToken t r = .ok b) ∧
    (∀ ts : List Token, sizeOf ts ≤ n → allTokensValid ts = true →
      ∀ r : Record, ∃ b, conjAll ts r = .ok b) ∧
    (∀ ts : List Token, sizeOf ts ≤ n → linkedTail ts = true →
      allTokensValid ts = true →
      ∀ (acc : Bool) (r : Record), ∃ b, foldLinked acc ts r = .ok b) ∧
    (∀ ts : List Token, sizeOf ts ≤ n → tokensValid ts = true →
      ∀ r : Record, ∃ b, evaluate ts r = .ok b) := by
  induction n with
  | zero =>
    refine ⟨?_, ?_, ?_, ?_⟩
    · intro t ht
      exfalso
      cases t <;> simp_arith at ht
    · intro ts ht
      exfalso
      cases ts <;> simp_arith at ht
    · intro ts ht
      exfalso
      cases ts <;> simp_arith at ht
    · intro ts ht
      exfalso
      cases ts <;> simp_arith at ht
  | succ n ih =>
    obtain ⟨ihTok, ihConj, ihFold, ihEval⟩ := ih
    have hTok : ∀ t : Token, sizeOf t ≤ n + 1 → tokenValid t = true →
        ∀ r : Record, ∃ b, evalToken t r = .ok b := by
      intro t ht hv r
      cases t with
      | pred p => exact ⟨matchPredicate p r, by simp [evalToken]⟩
      | link lk => exact ⟨false, by simp [evalToken]⟩
      | unrecognized => exact ⟨false, by simp [evalToken]⟩
      | group ts =>
        rw [tokenValid_group] at hv
        have hsz : sizeOf ts ≤ n := by
          simp_arith at ht
          omega
        obtain ⟨b, hb⟩ := ihEval ts hsz hv r
        exact ⟨b, by simpa [evalToken] using hb⟩
    have hConj : ∀ ts : List Token, sizeOf ts ≤ n + 1 →
        allTokensValid ts = true → ∀ r : Record, ∃ b, conjAll ts r = .ok b := by
      intro ts ht hv r
      cases ts with
      | nil => exact ⟨true, by simp [conjAll]⟩
      | cons t ts2 =>
        rw [allTokensValid_cons, Bool.and_eq_true] at hv
        have hszt : sizeOf t ≤ n + 1 := by
          simp_arith at ht
          omega
        have hszts : sizeOf ts2 ≤ n := by
          simp_arith at ht
          omega
        obtain ⟨b1, hb1⟩ := hTok t hszt hv.1 r
        obtain ⟨b2, hb2⟩ := ihConj ts2 hszts hv.2 r
        refine ⟨b1 && b2, ?_⟩
        simp only [conjAll, hb1, hb2]
        rfl
    have hFold : ∀ ts : List Token, sizeOf ts ≤ n + 1 → linkedTail ts = true →
        allTokensValid ts = true →
        ∀ (acc : Bool) (r : Record), ∃ b, foldLinked acc ts r = .ok b := by
      intro ts ht hshape hv acc r
      match ts with
      | [] => exact ⟨acc, by simp [foldLinked]⟩
      | [t] => simp [linkedTail] at hshape
      | l :: t :: rest =>
        simp only [linkedTail, Bool.and_eq_true] at hshape
        obtain ⟨⟨hlk, hop⟩, htail⟩ := hshape
        rw [allTokensValid_cons, Bool.and_eq_true] at hv
        obtain ⟨hvl, hv2⟩ := hv
        rw [allTokensValid_cons, Bool.and_eq_true] at hv2
        obtain ⟨hvt, hvrest⟩ := hv2
        cases l with
        | pred p => simp [isLink] at hlk
        | group g => simp [isLink] at hlk
        | unrecognized => simp [isLink] at hlk
        | link lk =>
          have hszt : sizeOf t ≤ n + 1 := by
            simp_arith at ht
            omega
          have hszrest : sizeOf rest ≤ n := by
            simp_arith at ht
            omega
          obtain ⟨b1, hb1⟩ := hTok t hszt hvt r
          obtain ⟨b2, hb2⟩ :=
            ihFold rest hszrest htail hvrest (combineLink lk acc b1) r
          refine ⟨b2, ?_⟩
          simp only [foldLinked, hb1]
          simpa using hb2
    have hEval : ∀ ts : List Token, sizeOf ts ≤ n + 1 →
        tokensValid ts = true → ∀ r : Record, ∃ b, evaluate ts r = .ok b := by
      intro ts ht hv r
      cases ts with
      | nil => exact ⟨true, evaluate_nil r⟩
      | cons t rest =>
        unfold tokensValid at hv
        rw [Bool.and_eq_true] at hv
        obtain ⟨halt, hall⟩ := hv
        cases hl : hasLink (t :: rest) with
        | false =>
          obtain ⟨b, hb⟩ := hConj (t :: rest) ht hall r
          exact ⟨b, by rw [evaluate_linkfree t rest r hl]; exact hb⟩
        | true =>
          rw [if_pos hl] at halt
          obtain ⟨hop, htail⟩ := validAlt_cons_shape (t :: rest) t rest rfl halt
          rw [allTokensValid_cons, Bool.and_eq_true] at hall
          have hszt : sizeOf t ≤ n + 1 := by
            simp_arith at ht
            omega
          have hszrest : sizeOf rest ≤ n + 1 := by
            simp_arith at ht
            omega
          obtain ⟨b1, hb1⟩ := hTok t hszt hall.1 r
          obtain ⟨b2, hb2⟩ := hFold rest hszrest htail hall.2 b1 r
          refine ⟨b2, ?_⟩
          simp only [evaluate, hl, halt, if_true, hb1]
          simpa using hb2
    exact ⟨hTok, hConj, hFold, hEval⟩

/-- Totality of the evaluator on structurally valid token lists. -/
lemma evaluate_total (ts : List Token) (hv : tokensValid ts = true)
    (r : Record) : ∃ b, evaluate ts r = .ok b :=
  (eval_total_aux (sizeOf ts)).2.2.2 ts (Nat.le_refl _) hv r


lemma filterRecords_total (ts : List Token) (hv : tokensValid ts = true)
    (l : List Record) : ∃ out, filterRecords ts l = .ok out := by
  induction l with
  | nil => exact ⟨[], by simp [filterRecords]⟩
  | cons r rs ih =>
    obtain ⟨b, hb⟩ := evaluate_total ts hv r
    obtain ⟨out, hout⟩ := ih
    refine ⟨if b then r :: out else out, ?_⟩
    simp only [filterRecords, hb, hout]
    rfl

lemma search_total (π : Type) (be : MemoryBackend) (m : ModelDef)
    (q : CompiledQuery π) (hv : tokensValid q.query = true) :
    ∃ res, search be m q = .ok res := by
  obtain ⟨out, hout⟩ :=
    filterRecords_total q.query hv ((getBucket be m).records.map Prod.snd)
  refine ⟨⟨applyTake q.take (sortStep q.sort out), q.page⟩, ?_⟩
  simp only [search, hout]
  rfl

lemma filterRecords_error (ts : List Token) (e : PyError)
    (h : ∀ r : Record, evaluate ts r = .error e) (l : List Record)
    (hne : l ≠ []) : filterRecords ts l = .error e := by
  cases l with
  | nil => exact absurd rfl hne
  | cons r rs =>
    simp only [filterRecords, h r]
    rfl

lemma search_error_of_invalid (π : Type) (be : MemoryBackend) (m : ModelDef)
    (q : CompiledQuery π) (h1 : hasLink q.query = true)
    (h2 : validAlt q.query = false)
    (hne : (getBucket be m).records ≠ []) :
    search be m q = .error (.valueError "invalid token sequence") := by
  have herr := filterRecords_error q.query _
    (evaluate_invalid q.query h1 h2) ((getBucket be m).records.map Prod.snd)
    (by simpa using hne)
  simp only [search, herr]
  rfl

lemma filterRecords_all_true (ts : List Token)
    (h : ∀ r : Record, evaluate ts r = .ok true) (l : List Record) :
    filterRecords ts l = .ok l := by
  induction l with
  | nil => simp [filterRecords]
  | cons r rs ih =>
    simp only [filterRecords, h r, ih]
    rfl


lemma lexLt_asymm (a b : List Char) (h : lexLt a b = true) :
    lexLt b a = false := by
  induction a generalizing b with
  | nil =>
    cases b with
    | nil => simp [lexLt] at h
    | cons c cs => simp [lexLt]
  | cons c cs ih =>
    cases b with
    | nil => simp [lexLt] at h
    | cons d ds =>
      simp only [lexLt] at h ⊢
      by_cases h1 : c < d
      · have h2 : ¬ d < c := lt_asymm h1
        simp [h1, h2]
      · by_cases h2 : d < c
        · simp [h1, h2] at h
        · simp only [h1, h2, if_false] at h ⊢
          exact ih ds h

lemma vlt_asymm (x y : Value) (h : vlt x y = true) : vlt y x = false := by
  cases x <;> cases y <;> simp_all [vlt] <;> first
    | omega
    | exact lexLt_asymm _ _ h

lemma recLt_asymm (sp : SortSpec) (a b : Record)
    (h : recLt sp a b = true) : recLt sp b a = false := by
  unfold recLt at h ⊢
  cases ha : lookupField a sp.property with
  | none => simp [ha] at h
  | some x =>
    cases hb : lookupField b sp.property with
    | none => simp [ha, hb] at h
    | some y =>
      simp only [ha, hb] at h ⊢
      cases ho : sp.order with
      | asc =>
        rw [ho] at h
        exact vlt_asymm x y h
      | dsc =>
        rw [ho] at h
        exact vlt_asymm y x h

lemma noAdjInv_tail (lt : α → α → Bool) (x : α) (xs : List α)
    (h : noAdjInv lt (x :: xs)) : noAdjInv lt xs := by
  cases xs with
  | nil => trivial
  | cons y ys => exact h.2

lemma insSort_id_of_noAdjInv (lt : α → α → Bool) (l : List α)
    (h : noAdjInv lt l) : insSort lt l = l := by
  induction l with
  | nil => simp [insSort]
  | cons x xs ih =>
    have htail := noAdjInv_tail lt x xs h
    rw [insSort, ih htail]
    cases xs with
    | nil => simp [insertLt]
    | cons y ys =>
      have hxy : lt y x = false := h.1
      simp [insertLt, hxy]

lemma noAdjInv_insertLt (lt : α → α → Bool)
    (hasymm : ∀ a b, lt a b = true → lt b a = false)
    (x : α) (s : List α) (h : noAdjInv lt s) :
    noAdjInv lt (insertLt lt x s) := by
  induction s with
  | nil => simp [insertLt, noAdjInv]
  | cons y ys ih =>
    by_cases hyx : lt y x = true
    · rw [insertLt, if_pos hyx]
      have htail := noAdjInv_tail lt y ys h
      have hins := ih htail
      cases ys with
      | nil =>
        simp only [insertLt]
        exact ⟨hasymm y x hyx, trivial⟩
      | cons z zs =>
        by_cases hzx : lt z x = true
        · rw [insertLt, if_pos hzx] at hins ⊢
          exact ⟨h.1, hins⟩
        · rw [insertLt, if_neg hzx] at hins ⊢
          refine ⟨hasymm y x hyx, hins⟩
    · rw [insertLt, if_neg hyx]
      exact ⟨Bool.not_eq_true _ ▸ (by simpa using hyx), h⟩

lemma noAdjInv_insSort (lt : α → α → Bool)
    (hasymm : ∀ a b, lt a b = true → lt b a = false) (l : List α) :
    noAdjInv lt (insSort lt l) := by
  induction l with
  | nil => simp [insSort, noAdjInv]
  | cons x xs ih => exact noAdjInv_insertLt lt hasymm x (insSort lt xs) ih

lemma insSort_idem (lt : α → α → Bool)
    (hasymm : ∀ a b, lt a b = true → lt b a = false) (l : List α) :
    insSort lt (insSort lt l) = insSort lt l :=
  insSort_id_of_noAdjInv lt _ (noAdjInv_insSort lt hasymm l)

lemma noAdjInv_of_pairwise_false (lt : α → α → Bool) (l : List α)
    (h : ∀ a ∈ l, ∀ b ∈ l, lt a b = false) : noAdjInv lt l := by
  induction l with
  | nil => trivial
  | cons x xs ih =>
    cases xs with
    | nil => trivial
    | cons y ys =>
      refine ⟨h y (by simp) x (by simp), ?_⟩
      exact ih (fun a ha b hb => h a (by simp [ha]) b (by simp [hb]))


lemma getBucket_setBucket (be : MemoryBackend) (m m2 : ModelDef) (b : Bucket) :
    getBucket (setBucket be m b) m2 =
      if bucketKey m2 = bucketKey m then b else getBucket be m2 := by
  simp [getBucket, setBucket]

lemma setBucket_getBucket (be : MemoryBackend) (m : ModelDef) :
    setBucket be m (getBucket be m) = be := by
  cases be with
  | mk f =>
    simp only [setBucket, getBucket]
    congr 1
    funext k
    split <;> simp_all [bucketKey]

lemma putRecord_counter (b : Bucket) (pk : Value) (r : Record) :
    (putRecord b pk r).counter = b.counter := by
  unfold putRecord
  split <;> rfl

lemma lookupField_append_of_none (d : Record) (k : String) (v : Value)
    (h : lookupField d k = none) : lookupField (d ++ [(k, v)]) k = some v := by
  induction d with
  | nil => simp [lookupField]
  | cons e d ih =>
    rw [List.cons_append]
    rw [lookupField] at h ⊢
    rcases e with ⟨k2, v2⟩
    by_cases hk : k2 == k
    · simp [hk] at h
    · simp only [hk, if_neg, Bool.false_eq_true, if_false] at h ⊢
      exact ih h

lemma create_auto (be : MemoryBackend) (m : ModelDef) (d : Record)
    (h : lookupField d m.primary_key = none) :
    lookupField (create be m d).1 m.primary_key
        = some (.vnum (Int.ofNat ((getBucket be m).counter + 1))) ∧
    (getBucket (create be m d).2 m).counter = (getBucket be m).counter + 1 := by
  unfold create
  simp only [h]
  constructor
  · exact lookupField_append_of_none d m.primary_key _ h
  · rw [getBucket_setBucket, if_pos rfl, putRecord_counter]

lemma counter_mono_applyOp (be : MemoryBackend) (m : ModelDef) (op : StoreOp) :
    (getBucket be m).counter ≤ (getBucket (applyOp be op) m).counter := by
  cases op with
  | createOp m2 d =>
    show (getBucket be m).counter ≤ (getBucket (create be m2 d).2 m).counter
    unfold create
    cases hpk : lookupField d m2.primary_key with
    | some pkv =>
      simp only [getBucket_setBucket]
      split
      · rename_i hkey
        have : getBucket be m = getBucket be m2 := by
          simp [getBucket, hkey]
        rw [this, putRecord_counter]
      · exact Nat.le_refl _
    | none =>
      simp only [getBucket_setBucket]
      split
      · rename_i hkey
        have : getBucket be m = getBucket be m2 := by
          simp [getBucket, hkey]
        rw [this, putRecord_counter]
        exact Nat.le_succ _
      · exact Nat.le_refl _
  | updateOp m2 pk p =>
    show (getBucket be m).counter ≤
      (getBucket (match update be m2 pk p with
        | .ok x => x.2
        | .error _ => be) m).counter
    cases hu : update be m2 pk p with
    | error e => exact Nat.le_refl _
    | ok x =>
      unfold update at hu
      cases hl : lookupPk (getBucket be m2) pk with
      | none =>
        simp only [hl] at hu
        cases hu
      | some stored =>
        simp only [hl] at hu
        injection hu with hx
        rw [← hx]
        simp only [getBucket_setBucket]
        split
        · rename_i hkey
          have : getBucket be m = getBucket be m2 := by
            simp [getBucket, hkey]
          rw [this, putRecord_counter]
        · exact Nat.le_refl _
  | deleteOp m2 pk =>
    show (getBucket be m).counter ≤ (getBucket (delete be m2 pk) m).counter
    unfold delete
    simp only [getBucket_setBucket]
    split
    · rename_i hkey
      have : getBucket be m = getBucket be m2 := by
        simp [getBucket, hkey]
      rw [this]
    · exact Nat.le_refl _

lemma counter_mono_applyOps (ops : List StoreOp) (be : MemoryBackend)
    (m : ModelDef) :
    (getBucket be m).counter ≤ (getBucket (applyOps be ops) m).counter := by
  induction ops generalizing be with
  | nil => exact Nat.le_refl _
  | cons op ops ih =>
    calc (getBucket be m).counter
        ≤ (getBucket (applyOp be op) m).counter := counter_mono_applyOp be m op
      _ ≤ (getBucket (applyOps (applyOp be op) ops) m).counter := ih _


lemma update_missing (be : MemoryBackend) (m : ModelDef) (pk : Value)
    (p : Record) (h : lookupPk (getBucket be m) pk = none) :
    update be m pk p = .error (.keyError "not found") := by
  unfold update
  simp [h]

lemma lookupPk_none_all (b : Bucket) (pk : Value)
    (h : lookupPk b pk = none) : ∀ en ∈ b.records, veq en.1 pk = false := by
  unfold lookupPk at h
  cases hf : b.records.find? (fun e => veq e.1 pk) with
  | some e =>
    rw [hf] at h
    cases h
  | none =>
    intro en hen
    simpa using List.find?_eq_none.mp hf en hen

lemma delete_noop (be : MemoryBackend) (m : ModelDef) (pk : Value)
    (h : lookupPk (getBucket be m) pk = none) : delete be m pk = be := by
  unfold delete
  have hfid : (getBucket be m).records.filter (fun en => !(veq en.1 pk))
      = (getBucket be m).records := by
    apply List.filter_eq_self.mpr
    intro a ha
    simp [lookupPk_none_all _ _ h a ha]
  show setBucket be m
    ⟨(getBucket be m).records.filter (fun en => !(veq en.1 pk)),
      (getBucket be m).counter⟩ = be
  rw [hfid]
  exact setBucket_getBucket be m

lemma recLt_none_left (sp : SortSpec) (a b : Record)
    (h : lookupField a sp.property = none) : recLt sp a b = false := by
  unfold recLt
  simp [h]

lemma sortStep_missing (sp : SortSpec) (l : List Record)
    (h : ∀ r ∈ l, lookupField r sp.property = none) :
    sortStep (some sp) l = l := by
  show insSort (recLt sp) l = l
  apply insSort_id_of_noAdjInv
  apply noAdjInv_of_pairwise_false
  intro a ha b hb
  exact recLt_none_left sp a b (h a ha)

lemma sortStep_idem (so : Option SortSpec) (l : List Record) :
    sortStep so (sortStep so l) = sortStep so l := by
  cases so with
  | none => rfl
  | some sp => exact insSort_idem (recLt sp) (recLt_asymm sp) l


lemma search_eq (π : Type) (be : MemoryBackend) (m : ModelDef)
    (q : CompiledQuery π) :
    search be m q =
      (filterRecords q.query ((getBucket be m).records.map Prod.snd)).map
        (fun matched =>
          ⟨applyTake q.take (sortStep q.sort matched), q.page⟩) := by
  unfold search
  cases filterRecords q.query ((getBucket be m).records.map Prod.snd) <;> rfl

/-- C3: for every non-empty token list with no link marker, evaluation is
the logical AND of evaluating each token individually against the record,
with an unrecognized token contributing false. -/
theorem evaluate_linkfree_conjunction (ts : List Token) (r : Record)
    (f : Token → Bool) (hne : ts ≠ [])
    (hnl : ∀ t ∈ ts, isLink t = false)
    (hf : ∀ t ∈ ts, evalToken t r = .ok (f t)) :
    evaluate ts r = .ok (ts.all f) ∧
    evalToken .unrecognized r = .ok false := by
  have hl : hasLink ts = false := (hasLink_eq_false_iff ts).mpr hnl
  cases ts with
  | nil => exact absurd rfl hne
  | cons t rest =>
    exact ⟨(evaluate_linkfree t rest r hl).trans
      (conjAll_of_pointwise _ r f hf), by simp [evalToken]⟩

/-- C4: the empty token list evaluates to true for every record, so a
search with an empty token list returns every record of the bucket. -/
theorem evaluate_empty_match_all :
    (∀ r : Record, evaluate [] r = .ok true) ∧
    (∀ l : List Record, filterRecords [] l = .ok l) ∧
    (∀ (π : Type) (p : π) (be : MemoryBackend) (m : ModelDef),
      search be m ⟨[], none, none, p⟩
        = .ok ⟨(getBucket be m).records.map Prod.snd, p⟩) := by
  have hfl : ∀ l : List Record, filterRecords [] l = .ok l :=
    filterRecords_all_true [] evaluate_nil
  refine ⟨evaluate_nil, hfl, ?_⟩
  intro π p be m
  rw [search_eq]
  simp only [hfl]
  rfl

/-- The ne/eq complement identity of the string comparator: for every
pair of values and every flag combination, the ne form is exactly the
negation of the eq form. -/
lemma compareString_ne_not_eq (rv pv : Value) (cs sw ew inc : Bool) :
    compareString rv pv ⟨.string, .ne, cs, sw, ew, inc⟩
      = !(compareString rv pv ⟨.string, .eq, cs, sw, ew, inc⟩) := by
  cases sw <;> cases ew <;> cases inc <;>
    simp [compareString, applyNe, bne]

/-- C5: a string predicate with one substring flag set holds exactly when
the (case-folded) effective record field — the stored value, or None for
an absent field, reduced through the same string path — exhibits that
substring relation to the predicate value; with equality_symbol = ne it
is exactly the negation, so over any record list the ne predicate
selects exactly the complement set of the eq predicate's matches. -/
theorem string_substring_flags :
    (∀ (r : Record) (prop : String) (pv : Value) (cs : Bool),
      (matchPredicate ⟨prop, pv, ⟨.string, .eq, cs, true, false, false⟩⟩ r
        = startsWithL
            (if cs then valueToText (fieldValue r prop)
              else (valueToText (fieldValue r prop)).toLower).data
            (if cs then valueToText pv else (valueToText pv).toLower).data) ∧
      (matchPredicate ⟨prop, pv, ⟨.string, .ne, cs, true, false, false⟩⟩ r
        = !(startsWithL
            (if cs then valueToText (fieldValue r prop)
              else (valueToText (fieldValue r prop)).toLower).data
            (if cs then valueToText pv else (valueToText pv).toLower).data)) ∧
      (matchPredicate ⟨prop, pv, ⟨.string, .eq, cs, false, true, false⟩⟩ r
        = startsWithL
            (if cs then valueToText (fieldValue r prop)
              else (valueToText (fieldValue r prop)).toLower).data.reverse
            (if cs then valueToText pv
              else (valueToText pv).toLower).data.reverse) ∧
      (matchPredicate ⟨prop, pv, ⟨.string, .ne, cs, false, true, false⟩⟩ r
        = !(startsWithL
            (if cs then valueToText (fieldValue r prop)
              else (valueToText (fieldValue r prop)).toLower).data.reverse
            (if cs then valueToText pv
              else (valueToText pv).toLower).data.reverse)) ∧
      (matchPredicate ⟨prop, pv, ⟨.string, .eq, cs, false, false, true⟩⟩ r
        = containsL
            (if cs then valueToText (fieldValue r prop)
              else (valueToText (fieldValue r prop)).toLower).data
            (if cs then valueToText pv else (valueToText pv).toLower).data) ∧
      (matchPredicate ⟨prop, pv, ⟨.string, .ne, cs, false, false, true⟩⟩ r
        = !(containsL
            (if cs then valueToText (fieldValue r prop)
              else (valueToText (fieldValue r prop)).toLower).data
            (if cs then valueToText pv else (valueToText pv).toLower).data))) ∧
    (∀ (l : List Record) (prop : String) (pv : Value) (cs sw ew inc : Bool),
      l.filter
          (fun r => matchPredicate ⟨prop, pv, ⟨.string, .ne, cs, sw, ew, inc⟩⟩ r)
        = l.filter
          (fun r =>
            !(matchPredicate ⟨prop, pv, ⟨.string, .eq, cs, sw, ew, inc⟩⟩ r))) := by
  constructor
  · intro r prop pv cs
    refine ⟨?_, ?_, ?_, ?_, ?_, ?_⟩ <;>
      simp [matchPredicate, compareByType, compareString, applyNe]
  · intro l prop pv cs sw ew inc
    apply List.filter_congr
    intro r hr
    simp only [matchPredicate, compareByType]
    exact compareString_ne_not_eq (fieldValue r prop) pv cs sw ew inc

/-- C6: the sort step is the identity when the sort key is absent from
every matched record (insertion order preserved), sorting is idempotent,
and take(n) truncation returns at most n results that form a prefix of
the sorted list (order preserved). -/
theorem sort_take_properties :
    (∀ (sp : SortSpec) (l : List Record),
      (∀ r ∈ l, lookupField r sp.property = none) →
      sortStep (some sp) l = l) ∧
    (∀ (so : Option SortSpec) (l : List Record),
      sortStep so (sortStep so l) = sortStep so l) ∧
    (∀ (n : Nat) (l : List Record),
      (applyTake (some n) l).length ≤ n ∧
      ∃ rest, l = applyTake (some n) l ++ rest) := by
  refine ⟨sortStep_missing, sortStep_idem, ?_⟩
  intro n l
  constructor
  · show (l.take n).length ≤ n
    simp [List.length_take]
  · exact ⟨l.drop n, by simp [applyTake]⟩

/-- C8: on a primary key with no stored record, update fails with the
not-found error, delete is a no-op that leaves the store unchanged, and
retrieve returns the absent-value signal. -/
theorem missing_key_behaviors (be : MemoryBackend) (m : ModelDef)
    (pk : Value) (p : Record) (h : lookupPk (getBucket be m) pk = none) :
    update be m pk p = .error (.keyError "not found") ∧
    delete be m pk = be ∧
    retrieve be m pk = none :=
  ⟨update_missing be m pk p h, delete_noop be m pk h, h⟩

/-- C9: whatever page value (of any type) the compiled query carries,
a successful search returns it verbatim. -/
theorem search_page_passthrough (π : Type) (be : MemoryBackend)
    (m : ModelDef) (q : CompiledQuery π) (res : SearchResult π)
    (h : search be m q = .ok res) : res.page = q.page := by
  rw [search_eq] at h
  cases hf : filterRecords q.query ((getBucket be m).records.map Prod.snd) with
  | error e =>
    rw [hf] at h
    simp [Except.map] at h
  | ok l =>
    rw [hf] at h
    simp only [Except.map] at h
    injection h with h2
    rw [← h2]


/-- C1: with at least one link marker present, any violation of the
positional alternation invariant (even length, a link at an even
position, an operand at an odd position) makes evaluation — and hence
any search over a non-empty bucket — fail with the structural error
instead of returning a result. -/
theorem evaluate_requires_strict_alternation (ts : List Token)
    (h1 : hasLink ts = true) (h2 : ¬ PositionalValid ts) :
    (∀ r : Record,
      evaluate ts r = .error (.valueError "invalid token sequence")) ∧
    (∀ (π : Type) (be : MemoryBackend) (m : ModelDef) (q : CompiledQuery π),
      q.query = ts → (getBucket be m).records ≠ [] →
      search be m q = .error (.valueError "invalid token sequence")) := by
  have hva : validAlt ts = false := by
    cases hv : validAlt ts
    · rfl
    · exact absurd ((validAlt_iff_positional ts).mp hv) h2
  refine ⟨evaluate_invalid ts h1 hva, ?_⟩
  intro π be m q hq hne
  exact search_error_of_invalid π be m q (by rw [hq]; exact h1)
    (by rw [hq]; exact hva) hne

/-- C2: on a structurally valid token list, search and evaluation are
total — they return a result for every record of any shape — and every
non-structural anomaly (failed numeric coercion, unparseable date text,
an out-of-range numeric epoch, an unsupported value shape, an equality
symbol invalid for the declared boolean/object type, an unrecognized
token) degrades to a false match instead of raising. -/
theorem search_total_on_valid :
    (∀ (π : Type) (be : MemoryBackend) (m : ModelDef) (q : CompiledQuery π),
      tokensValid q.query = true → ∃ res, search be m q = .ok res) ∧
    (∀ (ts : List Token) (r : Record),
      tokensValid ts = true → ∃ b, evaluate ts r = .ok b) ∧
    (∀ (rv pv : Value) (s : EqualitySymbol),
      toNumber rv = none → compareNumber rv pv s = false) ∧
    (∀ (rv pv : Value) (s : EqualitySymbol),
      toDatetime rv = none → compareDate rv pv s = false) ∧
    (∀ (txt : String) (pv : Value) (s : EqualitySymbol),
      parseIsoChars txt.data = none → compareDate (.vstr txt) pv s = false) ∧
    (∀ (n : Int) (pv : Value) (s : EqualitySymbol),
      n < -62135596800 ∨ 253402300799 < n →
      compareDate (.vnum n) pv s = false) ∧
    (∀ (rv pv : Value) (s : EqualitySymbol), s ≠ .eq → s ≠ .ne →
      compareBoolean rv pv s = false ∧ compareObject rv pv s = false) ∧
    (∀ r : Record, evalToken .unrecognized r = .ok false) := by
  refine ⟨search_total, fun ts r hv => evaluate_total ts hv r, ?_, ?_, ?_, ?_, ?_, ?_⟩
  · intro rv pv s h
    unfold compareNumber
    simp [h]
  · intro rv pv s h
    unfold compareDate
    simp [h]
  · intro txt pv s h
    unfold compareDate
    simp [toDatetime, h]
  · intro n pv s h
    have hc : (-62135596800 ≤ n && n ≤ 253402300799) = false := by
      simp only [Bool.and_eq_false_iff, decide_eq_false_iff_not, not_le]
      omega
    unfold compareDate
    simp [toDatetime, hc]
  · intro rv pv s h1 h2
    constructor
    · cases rv <;> cases pv <;> cases s <;> simp_all [compareBoolean]
    · cases s <;> simp_all [compareObject]
  · intro r
    simp [evalToken]

/-- C7: a create with the primary key absent assigns the bucket counter
plus one (so the first create on a fresh store assigns 1) and bumps the
counter; the counter never decreases across any sequence of creates,
updates and deletes; hence a primary key assigned by autoincrement is
strictly below any key assigned by a later autoincrement create of that
bucket, even after deletions — assigned keys are never reused. -/
theorem create_autoincrement_monotone :
    (∀ (m : ModelDef) (d : Record), lookupField d m.primary_key = none →
      lookupField (create emptyBackend m d).1 m.primary_key
        = some (.vnum 1)) ∧
    (∀ (be : MemoryBackend) (m : ModelDef) (d : Record),
      lookupField d m.primary_key = none →
      lookupField (create be m d).1 m.primary_key
          = some (.vnum (Int.ofNat ((getBucket be m).counter + 1))) ∧
      (getBucket (create be m d).2 m).counter
          = (getBucket be m).counter + 1) ∧
    (∀ (be : MemoryBackend) (ops : List StoreOp) (m : ModelDef),
      (getBucket be m).counter ≤ (getBucket (applyOps be ops) m).counter) ∧
    (∀ (be : MemoryBackend) (m : ModelDef) (d0 d : Record)
      (ops : List StoreOp) (j k : Int),
      lookupField d0 m.primary_key = none →
      lookupField d m.primary_key = none →
      lookupField (create be m d0).1 m.primary_key = some (.vnum j) →
      lookupField (create (applyOps (create be m d0).2 ops) m d).1
        m.primary_key = some (.vnum k) →
      j < k) := by
  refine ⟨?_, create_auto, fun be ops m => counter_mono_applyOps ops be m, ?_⟩
  · intro m d h
    have := (create_auto emptyBackend m d h).1
    simpa using this
  · intro be m d0 d ops j k h0 h1 hj hk
    obtain ⟨hl0, hc0⟩ := create_auto be m d0 h0
    obtain ⟨hl1, _⟩ := create_auto (applyOps (create be m d0).2 ops) m d h1
    rw [hl0] at hj
    rw [hl1] at hk
    injection hj with hj2
    injection hk with hk2
    injection hj2 with hj3
    injection hk2 with hk3
    have hmono := counter_mono_applyOps ops (create be m d0).2 m
    rw [hc0] at hmono
    simp only [Int.ofNat_eq_coe] at hj3 hk3
    omega

/-- C10: the concrete Python forms of the failure kinds — a structurally
invalid token sequence makes search fail with a ValueError, update on a
missing primary key fails with a KeyError, and retrieve on a missing
primary key returns None. -/
theorem concrete_python_error_forms :
    (∀ (π : Type) (be : MemoryBackend) (m : ModelDef) (q : CompiledQuery π),
      hasLink q.query = true → validAlt q.query = false →
      (getBucket be m).records ≠ [] →
      ∃ s, search be m q = .error (.valueError s)) ∧
    (∀ (be : MemoryBackend) (m : ModelDef) (pk : Value) (p : Record),
      lookupPk (getBucket be m) pk = none →
      ∃ s, update be m pk p = .error (.keyError s)) ∧
    (∀ (be : MemoryBackend) (m : ModelDef) (pk : Value),
      lookupPk (getBucket be m) pk = none → retrieve be m pk = none) :=
  ⟨fun π be m q h1 h2 hne =>
    ⟨"invalid token sequence", search_error_of_invalid π be m q h1 h2 hne⟩,
   fun be m pk p h => ⟨"not found", update_missing be m pk p h⟩,
   fun _ _ _ h => h⟩

theorem evaluate_requires_strict_alternation_witness :
    evaluate [wPredA, .link .and, wPredA, .link .and] []
      = .error (.valueError "invalid token sequence") :=
  (evaluate_requires_strict_alternation
    [wPredA, .link .and, wPredA, .link .and] rfl
    (fun h => absurd h.1 (by decide))).1 []

theorem search_total_on_valid_witness :
    (∃ b, evaluate [wPredA] recAB = .ok b) ∧
    compareNumber (.vstr "abc") (.vnum 5) .eq = false ∧
    compareDate (.vobj []) (.vnum 0) .gte = false ∧
    compareBoolean (.vbool true) (.vbool true) .gt = false :=
  ⟨search_total_on_valid.2.1 [wPredA] recAB
      (by simp [tokensValid, hasLink, isLink, allTokensValid, tokenValid, wPredA]),
   search_total_on_valid.2.2.1 (.vstr "abc") (.vnum 5) .eq (by decide),
   search_total_on_valid.2.2.2.1 (.vobj []) (.vnum 0) .gte rfl,
   (search_total_on_valid.2.2.2.2.2.2.1 (.vbool true) (.vbool true) .gt
      (by simp) (by simp)).1⟩

theorem evaluate_linkfree_conjunction_witness :
    evaluate [wPredA, wPredB] recAB = .ok true ∧
    evalToken .unrecognized recAB = .ok false :=
  evaluate_linkfree_conjunction [wPredA, wPredB] recAB (fun _ => true)
    (by simp)
    (by
      intro t ht
      rcases List.mem_cons.mp ht with rfl | ht2
      · rfl
      rcases List.mem_cons.mp ht2 with rfl | h3
      · rfl
      · cases h3)
    (by
      intro t ht
      rcases List.mem_cons.mp ht with rfl | ht2
      · simp [wPredA, evalToken]
        rfl
      rcases List.mem_cons.mp ht2 with rfl | h3
      · simp [wPredB, evalToken]
        rfl
      · cases h3)

theorem sort_take_properties_witness :
    sortStep (some ⟨"missing", .asc⟩)
        [[("id", Value.vnum 1)], [("id", Value.vnum 2)]]
      = [[("id", Value.vnum 1)], [("id", Value.vnum 2)]] ∧
    (applyTake (some 2)
        [[("id", Value.vnum 1)], [("id", Value.vnum 2)],
         [("id", Value.vnum 3)]]).length ≤ 2 :=
  ⟨sort_take_properties.1 ⟨"missing", .asc⟩ _
    (by
      intro r hr
      rcases List.mem_cons.mp hr with rfl | hr2
      · rfl
      rcases List.mem_cons.mp hr2 with rfl | h3
      · rfl
      · cases h3),
   (sort_take_properties.2.2 2 _).1⟩

theorem create_autoincrement_monotone_witness :
    lookupField (create emptyBackend mW [("name", Value.vstr "x")]).1 "id"
      = some (.vnum 1) ∧
    (1 : Int) < 2 :=
  ⟨create_autoincrement_monotone.1 mW [("name", Value.vstr "x")] rfl,
   create_autoincrement_monotone.2.2.2 emptyBackend mW
     [("name", Value.vstr "x")] [] [StoreOp.deleteOp mW (.vnum 1)] 1 2
     rfl rfl rfl rfl⟩

theorem missing_key_behaviors_witness :
    update emptyBackend mW (.vnum 999) [("x", .vnum 1)]
        = .error (.keyError "not found") ∧
    delete emptyBackend mW (.vnum 999) = emptyBackend ∧
    retrieve emptyBackend mW (.vnum 999) = none :=
  missing_key_behaviors emptyBackend mW (.vnum 999) [("x", .vnum 1)] rfl

theorem search_page_passthrough_witness :
    (SearchResult.page (⟨[], 42⟩ : SearchResult Nat)) = 42 :=
  search_page_passthrough Nat emptyBackend mW
    ⟨[], none, none, 42⟩ ⟨[], 42⟩ rfl

theorem concrete_python_error_forms_witness :
    (∃ s, search beW mW
        (⟨[wPredA, .link .and, wPredA, .link .and], none, none, (0 : Nat)⟩
          : CompiledQuery Nat)
      = .error (.valueError s)) ∧
    (∃ s, update emptyBackend mW (.vnum 7) [] = .error (.keyError s)) ∧
    retrieve emptyBackend mW (.vnum 7) = none :=
  ⟨concrete_python_error_forms.1 Nat beW mW _ rfl rfl
      (fun h => List.noConfusion h),
   concrete_python_error_forms.2.1 emptyBackend mW (.vnum 7) [] rfl,
   concrete_python_error_forms.2.2 emptyBackend mW (.vnum 7) rfl⟩
